import Mathlib

/-!
# Verification of the rikki analyzer job pipeline

A shallow embedding of `analyzer.go` (package main of the rikki repository)
together with proofs about its behaviour.

The embedding covers:

* corpus construction in `NewAnalyzer` (the `filepath.Walk` callback that
  derives a comment key from a file path via
  `strings.NewReplacer(dir, "", ".md", "")` and `strings.TrimLeft(key, "/")`);
* the `process` job handler: queue-argument extraction, solution fetch,
  track filter, the HTTP round trip to analysseur, payload validation,
  smell flattening, the in-place shuffle, first-match comment selection and
  comment submission.

External collaborators (the exercism API client, the go-workers message
type, the HTTP stack and the file system) are represented by explicit input
values describing the outcome of each call, and the observable behaviour of
a job is captured as a trace of outbound calls plus a terminal outcome.
Byte slices (`[]byte`) are modelled as `List Nat`.
-/

namespace Rikki

/-- Go slice element swap: models the statement
`smells[i], smells[j] = smells[j], smells[i]` (both right-hand sides are
read before either index is written). Out-of-range reads yield the default
element and out-of-range writes are dropped, but the program only ever
swaps in-range indices. -/
def listSwap {α : Type} [Inhabited α] (l : List α) (i j : Nat) : List α :=
  let a := l.getD i default
  let b := l.getD j default
  (l.set i b).set j a

/-- The body of the shuffle loop of `process`, starting at index `i`:
for each remaining random draw `j` (the value returned by
`rand.Intn(i+1)`), swap the elements at positions `i` and `j` and move to
the next index. -/
def shuffleFrom {α : Type} [Inhabited α] : List α → Nat → List Nat → List α
  | l, _, [] => l
  | l, i, j :: js => shuffleFrom (listSwap l i j) (i + 1) js

/-- The in-place shuffle of `process` (`for i := range smells { j :=
rand.Intn(i + 1); smells[i], smells[j] = smells[j], smells[i] }`), with the
sequence of random draws made explicit: the `k`-th entry of `js` is the
value drawn by `rand.Intn(k+1)`. -/
def shuffle {α : Type} [Inhabited α] (l : List α) (js : List Nat) : List α :=
  shuffleFrom l 0 js

/-- Modelled from the spec: the shuffle pass described in §4.4, which
iterates the index from the *second* element to the last (the draws in `js`
correspond to indices `1, 2, ...`). Used to compare the spec's loop with
the code's loop, which starts at index `0`. -/
def specShuffle {α : Type} [Inhabited α] (l : List α) (js : List Nat) : List α :=
  shuffleFrom l 1 js

/-- All possible sequences of random draws for a shuffle of `n` elements:
lists `js` of length `n` whose `k`-th entry lies in `[0, k]`, i.e. the
possible value sequences of `rand.Intn(1), rand.Intn(2), ..., rand.Intn(n)`. -/
def validDraws : Nat → List (List Nat)
  | 0 => [[]]
  | n + 1 => (validDraws n).flatMap (fun js => (List.range (n + 1)).map (fun j => js ++ [j]))

/-- Position of the first occurrence of `a` in a list (length of the list
if absent). Proof helper used to invert the shuffle. -/
def posOf (a : Nat) : List Nat → Nat
  | [] => 0
  | x :: t => if x = a then 0 else posOf a t + 1

/-- Inverse of the shuffle on the position list `List.range n`: reading the
result of the shuffle, recover the sequence of random draws that produced
it. Proof helper. -/
def recover : Nat → List Nat → List Nat
  | 0, _ => []
  | n + 1, l =>
    let j := posOf n l
    recover n ((listSwap l n j).take n) ++ [j]

/-- One pass of Go's `strings.NewReplacer(d, "", m, "").Replace`: scan left
to right; at each position try to match the pattern `d` and then the
pattern `m`, deleting a match (the replacements are both empty) and
continuing after it; copy the character otherwise. `fuel` bounds the
recursion and is always instantiated with the length of the scanned list,
which suffices because every step consumes at least one character. An empty
pattern never matches (in `NewAnalyzer` both patterns are nonempty). -/
def stripOccF (d m : List Char) : Nat → List Char → List Char
  | _, [] => []
  | 0, s => s
  | fuel + 1, c :: rest =>
    if !d.isEmpty && d.isPrefixOf (c :: rest) then
      stripOccF d m fuel ((c :: rest).drop d.length)
    else if !m.isEmpty && m.isPrefixOf (c :: rest) then
      stripOccF d m fuel ((c :: rest).drop m.length)
    else
      c :: stripOccF d m fuel rest

/-- `strings.NewReplacer(d, "", m, "").Replace s` on character lists. -/
def stripOcc (d m s : List Char) : List Char :=
  stripOccF d m s.length s

/-- The key derived from a file path by the `filepath.Walk` callback in
`NewAnalyzer`: every occurrence of the root directory string and of the
string `".md"` is deleted (`strings.NewReplacer(dir, "", ".md", "")`), then
leading `/` characters are trimmed (`strings.TrimLeft(key, "/")`). -/
def corpusKey (dir path : String) : String :=
  String.mk ((stripOcc dir.data ".md".data path.data).dropWhile (fun c => c = '/'))

/-- One entry reported by `filepath.Walk`: a path, whether it is a
directory, and (for regular files) the raw bytes returned by `read`.
`read` is not part of `analyzer.go`; modelled from the spec, which calls
the corpus values "raw comment content (bytes)". -/
structure WalkEntry where
  path : String
  isDir : Bool
  content : List Nat
deriving DecidableEq

/-- Corpus construction in `NewAnalyzer`: fold the walk callback over the
entries (in walk order). Directories are skipped; a regular file stores its
content under `corpusKey dir path`. The Go map is modelled as an
association list in which the most recent binding is placed first, so that
`List.lookup` realises Go's last-write-wins map semantics. -/
def buildComments (dir : String) (entries : List WalkEntry) : List (String × List Nat) :=
  entries.foldl (fun m e => if e.isDir then m else (corpusKey dir e.path, e.content) :: m) []

/-- One element of the `results` array of the analysseur response
(`analysisResult` in `analyzer.go`). -/
structure AnalysisResult where
  type : String
  keys : List String
deriving DecidableEq

/-- The decoded analysseur response (`analysisPayload` in `analyzer.go`). -/
structure AnalysisPayload where
  results : List AnalysisResult
  error : String
deriving DecidableEq

/-- `filepath.Join(t, k)` for the component strings produced by the
analysis service: empty components are dropped, the rest are joined with
`/`. (Go additionally runs `filepath.Clean` on the result; the cleaning of
`..`, `.` and repeated separators is not modelled — analysseur types and
keys are plain identifiers.) -/
def smellId (t k : String) : String :=
  if t = "" then k else if k = "" then t else t ++ "/" ++ k

/-- The flattening loop of `process`: for each result, for each key in its
`keys`, append `filepath.Join(result.Type, key)` to the `smells` slice, in
encounter order. -/
def flattenSmells (results : List AnalysisResult) : List String :=
  results.flatMap (fun r => r.keys.map (fun k => smellId r.type k))

/-- Go map read `analyzer.comments[smell]`: yields the stored value, or the
zero value `nil` (modelled as `[]`) when the key is absent. -/
def goGet (comments : List (String × List Nat)) (k : String) : List Nat :=
  (List.lookup k comments).getD []

/-- The comment-selection loop of `process`: scan the shuffled smells in
order and keep the first corpus value `b` with `len(b) > 0`; `none` when
the scan finds nothing (`len(comment) == 0` in the Go code). -/
def selectComment (comments : List (String × List Nat)) : List String → Option (List Nat)
  | [] => none
  | s :: rest =>
    let b := goGet comments s
    if b.length > 0 then some b else selectComment comments rest

/-- Modelled from the spec sentence of claim C1: return the content of the
first identifier that is *present* in the corpus mapping (regardless of the
stored content). Stated only to compare with `selectComment`. -/
def selectClaimed (comments : List (String × List Nat)) : List String → Option (List Nat)
  | [] => none
  | s :: rest =>
    match List.lookup s comments with
    | some b => some b
    | none => selectClaimed comments rest

/-- Modelled from the spec: the value returned by
`exercism.FetchSolution` (§3 Data Model), defined in the repository outside
`analyzer.go`. `files` is the ordered sequence of (filename, content)
pairs ranged over by `for _, source := range solution.Files`. -/
structure Solution where
  trackID : String
  files : List (String × String)
deriving DecidableEq

/-- An outbound call made while processing one job: the fetch of the
solution, the HTTP POST to `{analysseurHost}/analyze/{trackID}` (with the
serialized code blob), or the comment submission to exercism. -/
inductive Event where
  | fetchCall (uuid : String)
  | analyzeCall (trackID : String) (code : String)
  | publishCall (comment : List Nat) (uuid : String)
deriving DecidableEq

/-- Whether an event is a comment submission. -/
def isPublish : Event → Bool
  | Event.publishCall _ _ => true
  | _ => false

/-- The terminal outcome of one `process` invocation, one constructor per
`return` path of the Go function. -/
inductive Outcome where
  | argError
  | fetchError
  | unsupportedTrackSkip (trackID : String)
  | marshalError
  | requestPrepError
  | transportError
  | readBodyError
  | statusError (code : Nat)
  | parseError
  | remoteAnalysisError (msg : String)
  | emptyResultSkip
  | noMatchingCommentSkip
  | published
  | publishError
deriving DecidableEq

/-- Result of `json.Unmarshal` on the response body. -/
inductive BodyParse where
  | malformed
  | payload (ap : AnalysisPayload)
deriving DecidableEq

/-- Outcome of the analysseur HTTP round trip, one constructor per
fallible step of `process` between `json.Marshal` and `json.Unmarshal`:
marshalling, request construction, the network call itself, reading the
response body, or a delivered response with its status code and body. -/
inductive HttpRes where
  | marshalErr
  | newReqErr
  | doErr
  | readErr
  | resp (status : Nat) (body : BodyParse)
deriving DecidableEq

/-- The sequence of values drawn by `rand.Intn(1), ..., rand.Intn(n)`
during a shuffle of `n` elements, read off an ambient random stream `js`. -/
def drawsFor (js : List Nat) (n : Nat) : List Nat :=
  (List.range n).map (fun i => js.getD i 0)

/-- The shuffled smell slice of one job: flatten the analysis results and
run the shuffle loop with the job's random draws. -/
def shuffledSmells (ap : AnalysisPayload) (js : List Nat) : List String :=
  let smells := flattenSmells ap.results
  shuffle smells (drawsFor js smells.length)

/-- The `process` method of `Analyzer`, as a function of the analyzer's
comment corpus and of the outcomes of every external interaction:
`arg0` is the result of `msg.Args().GetIndex(0).String()` (`none` when the
first argument is missing or not a string), `fetch` the result of
`exercism.FetchSolution`, `http` the outcome of the analysseur round trip,
`js` the random draws consumed by the shuffle and `pubOk` whether
`exercism.SubmitComment` succeeds. It returns the trace of outbound calls
and the terminal outcome; logging has no other observable effect and is
not modelled. -/
def process (comments : List (String × List Nat)) (arg0 : Option String)
    (fetch : Except Unit Solution) (http : HttpRes) (js : List Nat) (pubOk : Bool) :
    List Event × Outcome :=
  match arg0 with
  | none => ([], Outcome.argError)
  | some uuid =>
    match fetch with
    | Except.error _ => ([Event.fetchCall uuid], Outcome.fetchError)
    | Except.ok solution =>
      if solution.trackID ≠ "ruby" then
        ([Event.fetchCall uuid], Outcome.unsupportedTrackSkip solution.trackID)
      else
        let sources := solution.files.map Prod.snd
        let code := String.intercalate "\n" sources
        match http with
        | HttpRes.marshalErr => ([Event.fetchCall uuid], Outcome.marshalError)
        | HttpRes.newReqErr => ([Event.fetchCall uuid], Outcome.requestPrepError)
        | HttpRes.doErr =>
          ([Event.fetchCall uuid, Event.analyzeCall solution.trackID code], Outcome.transportError)
        | HttpRes.readErr =>
          ([Event.fetchCall uuid, Event.analyzeCall solution.trackID code], Outcome.readBodyError)
        | HttpRes.resp status body =>
          let evs := [Event.fetchCall uuid, Event.analyzeCall solution.trackID code]
          if status ≠ 200 then (evs, Outcome.statusError status)
          else
            match body with
            | BodyParse.malformed => (evs, Outcome.parseError)
            | BodyParse.payload ap =>
              if ap.error ≠ "" then (evs, Outcome.remoteAnalysisError ap.error)
              else if ap.results.length = 0 then (evs, Outcome.emptyResultSkip)
              else
                match selectComment comments (shuffledSmells ap js) with
                | none => (evs, Outcome.noMatchingCommentSkip)
                | some comment =>
                  (evs ++ [Event.publishCall comment uuid],
                    if pubOk then Outcome.published else Outcome.publishError)

/-! ## Basic facts about `List.set`, `List.getD` and `listSwap` -/

theorem getD_set_eq {α : Type} : ∀ (l : List α) (i : Nat) (v d : α), i < l.length →
    (l.set i v).getD i d = v := by
  intro l
  induction l with
  | nil => intro i v d h; simp at h
  | cons x t ih =>
    intro i v d h
    cases i with
    | zero => rfl
    | succ k => exact ih k v d (by simpa using h)

theorem getD_set_ne {α : Type} : ∀ (l : List α) (i j : Nat) (v d : α), i ≠ j →
    (l.set i v).getD j d = l.getD j d := by
  intro l
  induction l with
  | nil => intro i j v d _; rfl
  | cons x t ih =>
    intro i j v d h
    cases i with
    | zero =>
      cases j with
      | zero => exact absurd rfl h
      | succ k => rfl
    | succ m =>
      cases j with
      | zero => rfl
      | succ k => exact ih m k v d (fun he => h (by rw [he]))

theorem set_getD_self {α : Type} : ∀ (l : List α) (i : Nat) (d : α), i < l.length →
    l.set i (l.getD i d) = l := by
  intro l
  induction l with
  | nil => intro i d h; simp at h
  | cons x t ih =>
    intro i d h
    cases i with
    | zero => rfl
    | succ k => simpa [List.set] using ih k d (by simpa using h)

theorem length_listSwap {α : Type} [Inhabited α] (l : List α) (i j : Nat) :
    (listSwap l i j).length = l.length := by
  simp [listSwap]

theorem listSwap_self {α : Type} [Inhabited α] : ∀ (l : List α) (i : Nat),
    listSwap l i i = l := by
  intro l
  induction l with
  | nil => intro i; cases i <;> rfl
  | cons x t ih =>
    intro i
    cases i with
    | zero => rfl
    | succ k => simpa [listSwap, List.set] using ih k

theorem listSwap_cons_succ {α : Type} [Inhabited α] (x : α) (t : List α) (i j : Nat) :
    listSwap (x :: t) (i + 1) (j + 1) = x :: listSwap t i j := by
  simp [listSwap, List.set]

theorem perm_swap_head {α : Type} [Inhabited α] : ∀ (t : List α) (m : Nat) (x : α),
    m < t.length → (t.getD m default :: t.set m x).Perm (x :: t) := by
  intro t
  induction t with
  | nil => intro m x h; simp at h
  | cons y u ih =>
    intro m x h
    cases m with
    | zero => exact List.Perm.swap x y u
    | succ k =>
      have hk : k < u.length := by simpa using h
      exact ((List.Perm.swap y (u.getD k default) (u.set k x)).trans
        ((ih k x hk).cons y)).trans (List.Perm.swap x y u)

theorem listSwap_perm {α : Type} [Inhabited α] : ∀ (l : List α) (i j : Nat),
    i < l.length → j < l.length → (listSwap l i j).Perm l := by
  intro l
  induction l with
  | nil => intro i j h; simp at h
  | cons x t ih =>
    intro i j hi hj
    cases i with
    | zero =>
      cases j with
      | zero => rw [listSwap_self]
      | succ k =>
        have hk : k < t.length := by simpa using hj
        have : listSwap (x :: t) 0 (k + 1) = t.getD k default :: t.set k x := by
          simp [listSwap, List.set]
        rw [this]
        exact perm_swap_head t k x hk
    | succ m =>
      cases j with
      | zero =>
        have hm : m < t.length := by simpa using hi
        have : listSwap (x :: t) (m + 1) 0 = t.getD m default :: t.set m x := by
          simp [listSwap, List.set]
        rw [this]
        exact perm_swap_head t m x hm
      | succ k =>
        rw [listSwap_cons_succ]
        exact List.Perm.cons x (ih m k (by simpa using hi) (by simpa using hj))

theorem listSwap_listSwap {α : Type} [Inhabited α] : ∀ (l : List α) (i j : Nat),
    i < l.length → j < l.length → listSwap (listSwap l i j) i j = l := by
  intro l
  induction l with
  | nil => intro i j h; simp at h
  | cons x t ih =>
    intro i j hi hj
    cases i with
    | zero =>
      cases j with
      | zero => rw [listSwap_self, listSwap_self]
      | succ k =>
        have hk : k < t.length := by simpa using hj
        have e1 : listSwap (x :: t) 0 (k + 1) = t.getD k default :: t.set k x := by
          simp [listSwap, List.set]
        have e2 : listSwap (t.getD k default :: t.set k x) 0 (k + 1)
            = (t.set k x).getD k default :: (t.set k x).set k (t.getD k default) := by
          simp [listSwap, List.set]
        rw [e1, e2, getD_set_eq t k x default hk, List.set_set, set_getD_self t k default hk]
    | succ m =>
      cases j with
      | zero =>
        have hm : m < t.length := by simpa using hi
        have e1 : listSwap (x :: t) (m + 1) 0 = t.getD m default :: t.set m x := by
          simp [listSwap, List.set]
        have e2 : listSwap (t.getD m default :: t.set m x) (m + 1) 0
            = (t.set m x).getD m default :: (t.set m x).set m (t.getD m default) := by
          simp [listSwap, List.set]
        rw [e1, e2, getD_set_eq t m x default hm, List.set_set, set_getD_self t m default hm]
      | succ k =>
        rw [listSwap_cons_succ, listSwap_cons_succ,
          ih m k (by simpa using hi) (by simpa using hj)]

theorem getD_append_left {α : Type} (l l₂ : List α) (i : Nat) (d : α) (h : i < l.length) :
    (l ++ l₂).getD i d = l.getD i d := by
  rw [List.getD_eq_getElem?_getD, List.getD_eq_getElem?_getD, List.getElem?_append_left h]

theorem set_append_left' {α : Type} (l l₂ : List α) (i : Nat) (v : α) (h : i < l.length) :
    (l ++ l₂).set i v = l.set i v ++ l₂ :=
  List.set_append_left _ _ h

theorem listSwap_append_left {α : Type} [Inhabited α] (l l₂ : List α) (i j : Nat)
    (hi : i < l.length) (hj : j < l.length) :
    listSwap (l ++ l₂) i j = listSwap l i j ++ l₂ := by
  simp only [listSwap]
  rw [getD_append_left _ _ _ _ hi, getD_append_left _ _ _ _ hj,
    set_append_left' _ _ _ _ hi, set_append_left' _ _ _ _ (by simpa using hj)]

/-! ## Facts about the shuffle loop -/

theorem length_shuffleFrom {α : Type} [Inhabited α] : ∀ (js : List Nat) (l : List α) (i : Nat),
    (shuffleFrom l i js).length = l.length := by
  intro js
  induction js with
  | nil => intro l i; rfl
  | cons j t ih =>
    intro l i
    rw [shuffleFrom, ih, length_listSwap]

theorem shuffleFrom_snoc {α : Type} [Inhabited α] : ∀ (js : List Nat) (l : List α) (i j : Nat),
    shuffleFrom l i (js ++ [j]) = listSwap (shuffleFrom l i js) (i + js.length) j := by
  intro js
  induction js with
  | nil => intro l i j; rfl
  | cons j' t ih =>
    intro l i j
    rw [List.cons_append, shuffleFrom, shuffleFrom, ih]
    have e : i + 1 + t.length = i + (t.length + 1) := by omega
    rw [e, List.length_cons]

theorem shuffleFrom_append_right {α : Type} [Inhabited α] : ∀ (js : List Nat) (l u : List α)
    (i : Nat), (∀ k, k < js.length → js.getD k 0 ≤ i + k) → i + js.length ≤ l.length →
    shuffleFrom (l ++ u) i js = shuffleFrom l i js ++ u := by
  intro js
  induction js with
  | nil => intro l u i _ _; rfl
  | cons j t ih =>
    intro l u i hv hb
    have hi : i < l.length := by
      have := hb; simp [List.length_cons] at this; omega
    have hj : j ≤ i := by simpa using hv 0 (by simp)
    rw [shuffleFrom, shuffleFrom, listSwap_append_left l u i j hi (lt_of_le_of_lt hj hi)]
    refine ih (listSwap l i j) u (i + 1) ?_ ?_
    · intro k hk
      have := hv (k + 1) (by simpa using hk)
      simpa [Nat.add_comm, Nat.add_left_comm] using this
    · rw [length_listSwap]
      simp [List.length_cons] at hb
      omega

theorem shuffleFrom_perm {α : Type} [Inhabited α] : ∀ (js : List Nat) (l : List α) (i : Nat),
    (∀ k, k < js.length → js.getD k 0 ≤ i + k) → i + js.length ≤ l.length →
    (shuffleFrom l i js).Perm l := by
  intro js
  induction js with
  | nil => intro l i _ _; exact List.Perm.refl l
  | cons j t ih =>
    intro l i hv hb
    have hi : i < l.length := by
      have := hb; simp [List.length_cons] at this; omega
    have hj : j ≤ i := by simpa using hv 0 (by simp)
    rw [shuffleFrom]
    refine List.Perm.trans (ih (listSwap l i j) (i + 1) ?_ ?_) ?_
    · intro k hk
      have := hv (k + 1) (by simpa using hk)
      simpa [Nat.add_comm, Nat.add_left_comm] using this
    · rw [length_listSwap]
      simp [List.length_cons] at hb
      omega
    · exact listSwap_perm l i j hi (lt_of_le_of_lt hj hi)

theorem listSwap_map {α : Type} [Inhabited α] (g : Nat → α) (l : List Nat) (i j : Nat)
    (hi : i < l.length) (hj : j < l.length) :
    listSwap (l.map g) i j = (listSwap l i j).map g := by
  simp only [listSwap]
  have egi : (l.map g).getD i default = g (l.getD i 0) := by
    rw [List.getD_eq_getElem _ _ (by simpa using hi), List.getElem_map,
      List.getD_eq_getElem _ _ hi]
  have egj : (l.map g).getD j default = g (l.getD j 0) := by
    rw [List.getD_eq_getElem _ _ (by simpa using hj), List.getElem_map,
      List.getD_eq_getElem _ _ hj]
  rw [egi, egj, List.set_map, List.set_map]
  rfl

theorem shuffleFrom_map {α : Type} [Inhabited α] (g : Nat → α) : ∀ (js : List Nat)
    (l : List Nat) (i : Nat), (∀ k, k < js.length → js.getD k 0 ≤ i + k) →
    i + js.length ≤ l.length →
    shuffleFrom (l.map g) i js = (shuffleFrom l i js).map g := by
  intro js
  induction js with
  | nil => intro l i _ _; rfl
  | cons j t ih =>
    intro l i hv hb
    have hi : i < l.length := by
      have := hb; simp [List.length_cons] at this; omega
    have hj : j ≤ i := by simpa using hv 0 (by simp)
    rw [shuffleFrom, shuffleFrom, listSwap_map g l i j hi (lt_of_le_of_lt hj hi)]
    refine ih (listSwap l i j) (i + 1) ?_ ?_
    · intro k hk
      have := hv (k + 1) (by simpa using hk)
      simpa [Nat.add_comm, Nat.add_left_comm] using this
    · rw [length_listSwap]
      simp [List.length_cons] at hb
      omega

theorem map_getD_range {α : Type} (d : α) : ∀ (xs : List α),
    (List.range xs.length).map (fun i => xs.getD i d) = xs := by
  intro xs
  induction xs with
  | nil => rfl
  | cons x t ih =>
    rw [List.length_cons, List.range_succ_eq_map, List.map_cons, List.map_map]
    have e : ((fun i => (x :: t).getD i d) ∘ Nat.succ) = fun i => t.getD i d := by
      funext i
      simp [Function.comp, List.getD_cons_succ]
    rw [e, ih]
    rfl

/-! ## The space of draw sequences -/

theorem getD_snoc_length {α : Type} (l : List α) (a d : α) :
    (l ++ [a]).getD l.length d = a := by
  rw [List.getD_eq_getElem?_getD, List.getElem?_concat_length]
  rfl

theorem mem_validDraws_succ (n : Nat) (js : List Nat) :
    js ∈ validDraws (n + 1) ↔ ∃ t, t ∈ validDraws n ∧ ∃ j, j ≤ n ∧ js = t ++ [j] := by
  simp only [validDraws, List.mem_flatMap, List.mem_map, List.mem_range]
  constructor
  · rintro ⟨t, ht, j, hj, he⟩
    exact ⟨t, ht, j, by omega, he.symm⟩
  · rintro ⟨t, ht, j, hj, he⟩
    exact ⟨t, ht, j, by omega, he.symm⟩

theorem validDraws_spec : ∀ (n : Nat) (js : List Nat), js ∈ validDraws n →
    js.length = n ∧ ∀ k, k < n → js.getD k 0 ≤ k := by
  intro n
  induction n with
  | zero =>
    intro js hjs
    have : js = [] := by simpa [validDraws] using hjs
    subst this
    exact ⟨rfl, fun k hk => by omega⟩
  | succ m ih =>
    intro js hjs
    rcases (mem_validDraws_succ m js).mp hjs with ⟨t, ht, j, hj, he⟩
    subst he
    rcases ih t ht with ⟨hlen, hval⟩
    constructor
    · simp [hlen]
    · intro k hk
      by_cases hkm : k < m
      · rw [getD_append_left t [j] k 0 (by omega)]
        exact hval k hkm
      · have hkm' : k = m := by omega
        subst hkm'
        rw [← hlen, getD_snoc_length]
        omega

theorem validDraws_nodup : ∀ (n : Nat), (validDraws n).Nodup := by
  intro n
  induction n with
  | zero => simp [validDraws]
  | succ m ih =>
    rw [validDraws]
    rw [List.nodup_flatMap]
    constructor
    · intro t _
      refine List.Nodup.map ?_ (List.nodup_range (n := m + 1))
      intro a b hab
      have := congrArg (fun l => l.getD t.length 0) hab
      simpa [getD_snoc_length] using this
    · refine List.Pairwise.imp ?_ ih
      intro t t' hne
      intro a ha ha'
      rcases List.mem_map.mp ha with ⟨j, _, hj⟩
      rcases List.mem_map.mp ha' with ⟨j', _, hj'⟩
      apply hne
      have := hj.trans hj'.symm
      have h2 := congrArg List.dropLast this
      simpa [List.dropLast_concat] using h2

/-! ## Facts about `posOf` -/

theorem posOf_lt_length : ∀ (l : List Nat) (a : Nat), a ∈ l → posOf a l < l.length := by
  intro l
  induction l with
  | nil => intro a ha; simp at ha
  | cons x t ih =>
    intro a ha
    by_cases hx : x = a
    · simp [posOf, hx]
    · have : a ∈ t := by
        rcases List.mem_cons.mp ha with h | h
        · exact absurd h.symm hx
        · exact h
      simp only [posOf, if_neg hx, List.length_cons]
      exact Nat.succ_lt_succ (ih a this)

theorem getD_posOf : ∀ (l : List Nat) (a d : Nat), a ∈ l → l.getD (posOf a l) d = a := by
  intro l
  induction l with
  | nil => intro a d ha; simp at ha
  | cons x t ih =>
    intro a d ha
    by_cases hx : x = a
    · simp [posOf, hx]
    · have hat : a ∈ t := by
        rcases List.mem_cons.mp ha with h | h
        · exact absurd h.symm hx
        · exact h
      simp only [posOf, if_neg hx, List.getD_cons_succ]
      exact ih a d hat

theorem posOf_append_of_mem : ∀ (l u : List Nat) (a : Nat), a ∈ l →
    posOf a (l ++ u) = posOf a l := by
  intro l
  induction l with
  | nil => intro u a ha; simp at ha
  | cons x t ih =>
    intro u a ha
    by_cases hx : x = a
    · simp [posOf, hx]
    · have hat : a ∈ t := by
        rcases List.mem_cons.mp ha with h | h
        · exact absurd h.symm hx
        · exact h
      simp only [List.cons_append, posOf, if_neg hx]
      simp only [List.append_eq]
      rw [ih u a hat]

theorem posOf_set_eq : ∀ (l : List Nat) (j a : Nat), a ∉ l → j < l.length →
    posOf a (l.set j a) = j := by
  intro l
  induction l with
  | nil => intro j a _ hj; simp at hj
  | cons x t ih =>
    intro j a ha hj
    cases j with
    | zero => simp [List.set, posOf]
    | succ k =>
      have hxa : x ≠ a := fun he => ha (by simp [he])
      have hat : a ∉ t := fun he => ha (List.mem_cons_of_mem x he)
      simp only [List.set, posOf, if_neg hxa]
      rw [ih k a hat (by simpa using hj)]

theorem posOf_append_self : ∀ (l u : List Nat) (a : Nat), a ∉ l →
    posOf a (l ++ a :: u) = l.length := by
  intro l
  induction l with
  | nil => intro u a _; simp [posOf]
  | cons x t ih =>
    intro u a ha
    have hxa : x ≠ a := fun he => ha (by simp [he])
    have hat : a ∉ t := fun he => ha (List.mem_cons_of_mem x he)
    simp only [List.cons_append, posOf, if_neg hxa, List.length_cons]
    simp only [List.append_eq]
    rw [ih u a hat]

/-! ## The shuffle is a bijection from draw sequences to permutations -/

theorem decomp_snoc : ∀ (l : List Nat) (n : Nat), l.length = n + 1 →
    l = l.take n ++ [l.getD n 0] := by
  intro l
  induction l with
  | nil => intro n h; simp at h
  | cons x t ih =>
    intro n h
    cases n with
    | zero =>
      have ht0 : t = [] := by
        have h2 := h
        simp at h2
        exact h2
      subst ht0
      rfl
    | succ k =>
      have ht : t.length = k + 1 := by simpa using h
      have := ih k ht
      calc x :: t = x :: (t.take k ++ [t.getD k 0]) := by rw [← this]
        _ = (x :: t).take (k + 1) ++ [(x :: t).getD (k + 1) 0] := by
              simp [List.take_cons, List.getD_cons_succ]

theorem set_snoc_length (l : List Nat) (a v : Nat) : (l ++ [a]).set l.length v = l ++ [v] := by
  rw [List.set_append_right _ _ (Nat.le_refl l.length)]
  simp

theorem getD_mem (l : List Nat) (i d : Nat) (h : i < l.length) : l.getD i d ∈ l := by
  rw [List.getD_eq_getElem l d h]
  exact List.getElem_mem h

theorem listSwap_snoc_lt (A : List Nat) (x j n : Nat) (hn : n = A.length)
    (hj : j < A.length) :
    listSwap (A ++ [x]) n j = A.set j x ++ [A.getD j 0] := by
  subst hn
  simp only [listSwap]
  rw [getD_snoc_length, getD_append_left _ _ _ _ hj, set_snoc_length,
    set_append_left' _ _ _ _ hj]
  rfl

theorem shuffle_range_succ_snoc (m : Nat) (t : List Nat) (ht : t ∈ validDraws m) (j : Nat) :
    shuffle (List.range (m + 1)) (t ++ [j])
      = listSwap (shuffle (List.range m) t ++ [m]) m j := by
  rcases validDraws_spec m t ht with ⟨hlen, hval⟩
  show shuffleFrom (List.range (m + 1)) 0 (t ++ [j])
      = listSwap (shuffleFrom (List.range m) 0 t ++ [m]) m j
  rw [shuffleFrom_snoc, List.range_succ]
  rw [shuffleFrom_append_right t (List.range m) [m] 0
    (fun k hk => by simpa using hval k (by omega))
    (by simp [hlen])]
  rw [Nat.zero_add, hlen]

theorem shuffle_recover_of_validDraws : ∀ (n : Nat) (js : List Nat), js ∈ validDraws n →
    recover n (shuffle (List.range n) js) = js
      ∧ (shuffle (List.range n) js).Perm (List.range n) := by
  intro n
  induction n with
  | zero =>
    intro js hjs
    have : js = [] := by simpa [validDraws] using hjs
    subst this
    exact ⟨rfl, List.Perm.refl _⟩
  | succ m ih =>
    intro js hjs
    rcases (mem_validDraws_succ m js).mp hjs with ⟨t, ht, j, hj, he⟩
    subst he
    rcases validDraws_spec m t ht with ⟨hlen, _⟩
    rcases ih t ht with ⟨hrec, hperm⟩
    have hF := shuffle_range_succ_snoc m t ht j
    have hAlen : (shuffle (List.range m) t).length = m := by
      rw [hperm.length_eq, List.length_range]
    have hnA : m ∉ shuffle (List.range m) t := fun hmem => by
      have := hperm.mem_iff.mp hmem
      simp [List.mem_range] at this
    have hlenAm : (shuffle (List.range m) t ++ [m]).length = m + 1 := by simp [hAlen]
    have hpos : posOf m (listSwap (shuffle (List.range m) t ++ [m]) m j) = j := by
      by_cases hjm : j = m
      · rw [hjm, listSwap_self]
        have h := posOf_append_self (shuffle (List.range m) t) [] m hnA
        simpa [hAlen] using h
      · have hjlt : j < m := by omega
        have hjA : j < (shuffle (List.range m) t).length := by rw [hAlen]; exact hjlt
        rw [listSwap_snoc_lt (shuffle (List.range m) t) m j m hAlen.symm hjA]
        have hmem : m ∈ (shuffle (List.range m) t).set j m := by
          have h1 : ((shuffle (List.range m) t).set j m).getD j 0 = m :=
            getD_set_eq _ j m 0 hjA
          have h2 := getD_mem ((shuffle (List.range m) t).set j m) j 0
            (by rw [List.length_set]; exact hjA)
          rwa [h1] at h2
        rw [posOf_append_of_mem _ _ m hmem]
        exact posOf_set_eq _ j m hnA hjA
    constructor
    · rw [hF]
      show recover (m + 1) (listSwap (shuffle (List.range m) t ++ [m]) m j) = t ++ [j]
      simp only [recover]
      rw [hpos]
      rw [listSwap_listSwap _ m j (by omega) (by omega)]
      have htake : (shuffle (List.range m) t ++ [m]).take m = shuffle (List.range m) t := by
        have h := List.take_left (shuffle (List.range m) t) [m]
        rwa [hAlen] at h
      rw [htake, hrec]
    · rw [hF]
      refine List.Perm.trans (listSwap_perm _ m j (by omega) (by omega)) ?_
      rw [List.range_succ]
      exact hperm.append_right [m]

theorem recover_shuffle_of_perm : ∀ (n : Nat) (l : List Nat), l.Perm (List.range n) →
    recover n l ∈ validDraws n ∧ shuffle (List.range n) (recover n l) = l := by
  intro n
  induction n with
  | zero =>
    intro l hl
    have : l = [] := hl.eq_nil
    subst this
    exact ⟨by simp [validDraws, recover], rfl⟩
  | succ m ih =>
    intro l hl
    have hlen : l.length = m + 1 := by rw [hl.length_eq, List.length_range]
    have hm : m ∈ l := hl.mem_iff.mpr (by simp [List.mem_range])
    have hjlt : posOf m l < m + 1 := hlen ▸ posOf_lt_length l m hm
    have hgd : l.getD (posOf m l) 0 = m := getD_posOf l m 0 hm
    have hLperm : (listSwap l m (posOf m l)).Perm l :=
      listSwap_perm l m (posOf m l) (by omega) (by omega)
    have hLlen : (listSwap l m (posOf m l)).length = m + 1 := by
      rw [length_listSwap]; exact hlen
    have hLm : (listSwap l m (posOf m l)).getD m 0 = m := by
      by_cases hjm : posOf m l = m
      · rw [hjm, listSwap_self]
        rw [hjm] at hgd
        exact hgd
      · simp only [listSwap]
        rw [getD_set_ne _ (posOf m l) m _ _ hjm, getD_set_eq _ m _ _ (by omega)]
        exact hgd
    have hdecomp : listSwap l m (posOf m l)
        = (listSwap l m (posOf m l)).take m ++ [m] := by
      have h := decomp_snoc (listSwap l m (posOf m l)) m hLlen
      rwa [hLm] at h
    have hAperm : ((listSwap l m (posOf m l)).take m).Perm (List.range m) := by
      have h1 : ((listSwap l m (posOf m l)).take m ++ [m]).Perm (List.range m ++ [m]) := by
        rw [← hdecomp]
        exact hLperm.trans (hl.trans (by rw [List.range_succ]))
      have h2 := ((List.perm_append_singleton m _).symm.trans h1).trans
        (List.perm_append_singleton m _)
      exact h2.cons_inv
    rcases ih _ hAperm with ⟨hmem, hsh⟩
    have hreclen : (recover m ((listSwap l m (posOf m l)).take m)).length = m :=
      (validDraws_spec m _ hmem).1
    have hrecval := (validDraws_spec m _ hmem).2
    constructor
    · show recover (m + 1) l ∈ validDraws (m + 1)
      simp only [recover]
      exact (mem_validDraws_succ m _).mpr
        ⟨recover m ((listSwap l m (posOf m l)).take m), hmem, posOf m l, by omega, rfl⟩
    · show shuffle (List.range (m + 1)) (recover (m + 1) l) = l
      simp only [recover]
      rw [shuffle_range_succ_snoc m _ hmem (posOf m l), hsh, ← hdecomp]
      exact listSwap_listSwap l m (posOf m l) (by omega) (by omega)

theorem filter_eq_self_length_one : ∀ (L : List (List Nat)) (r : List Nat), L.Nodup →
    r ∈ L → (L.filter (fun js => decide (js = r))).length = 1 := by
  intro L r
  induction L with
  | nil => intro _ h; simp at h
  | cons x t ih =>
    intro hnd hmem
    by_cases hx : x = r
    · subst hx
      rw [List.filter_cons_of_pos (by simp)]
      have hxt : x ∉ t := (List.nodup_cons.mp hnd).1
      have hnil : t.filter (fun js => decide (js = x)) = [] := by
        rw [List.filter_eq_nil_iff]
        intro a ha
        simp only [decide_eq_true_eq]
        intro he
        exact hxt (he ▸ ha)
      simp [hnil]
    · rw [List.filter_cons_of_neg (by simp [hx])]
      refine ih (List.nodup_cons.mp hnd).2 ?_
      rcases List.mem_cons.mp hmem with h | h
      · exact absurd h.symm hx
      · exact h

/-- Claim C5: the in-place shuffle pass of `process` maps the space of
possible random-draw sequences bijectively onto the rearrangements of the
input: for each fixed rearrangement `l` of the position list
`List.range n` there is exactly one draw sequence producing it, so a
uniform randomness source yields every permutation with equal probability;
moreover, on an arbitrary flattened smell sequence `xs` the shuffle applies
exactly that position permutation. -/
theorem shuffle_uniform_over_permutations (n : Nat) (xs : List Nat) (hxs : xs.length = n)
    (l : List Nat) (hl : l.Perm (List.range n)) :
    ((validDraws n).filter (fun js => decide (shuffle (List.range n) js = l))).length = 1
    ∧ ∀ js ∈ validDraws n,
        shuffle xs js = (shuffle (List.range n) js).map (fun p => xs.getD p 0) := by
  constructor
  · rcases recover_shuffle_of_perm n l hl with ⟨hrmem, hrsh⟩
    have hfc : (validDraws n).filter (fun js => decide (shuffle (List.range n) js = l))
        = (validDraws n).filter (fun js => decide (js = recover n l)) := by
      apply List.filter_congr
      intro js hjs
      rcases shuffle_recover_of_validDraws n js hjs with ⟨hrec, _⟩
      refine decide_eq_decide.mpr ?_
      constructor
      · intro he
        rw [← hrec, he]
      · intro he
        rw [he, hrsh]
    rw [hfc]
    exact filter_eq_self_length_one (validDraws n) (recover n l) (validDraws_nodup n) hrmem
  · intro js hjs
    rcases validDraws_spec n js hjs with ⟨hjlen, hjval⟩
    have hmap := shuffleFrom_map (fun p => xs.getD p 0) js (List.range n) 0
      (fun k hk => by simpa using hjval k (by omega))
      (by simp [hjlen])
    have hx : (List.range n).map (fun p => xs.getD p 0) = xs := by
      rw [← hxs]
      exact map_getD_range 0 xs
    conv_lhs => rw [← hx]
    exact hmap

theorem shuffle_uniform_over_permutations_check :
    ((validDraws 3).filter (fun js => decide (shuffle (List.range 3) js = [2, 0, 1]))).length = 1
    ∧ ∀ js ∈ validDraws 3,
        shuffle [10, 20, 30] js
          = (shuffle (List.range 3) js).map (fun p => ([10, 20, 30] : List Nat).getD p 0) :=
  shuffle_uniform_over_permutations 3 [10, 20, 30] rfl [2, 0, 1] (by decide)

/-- Claim C10: the code's shuffle loop starts at index `0`, while the
spec's loop starts at the second element; they compute the same
permutation for every input sequence and every draw sequence for indices
`1` and up, because the draw at index `0` (`rand.Intn(1)`) is necessarily
`0` and the resulting swap of element `0` with itself is a no-op. -/
theorem shuffle_first_iteration_noop {α : Type} [Inhabited α] (l : List α) (j0 : Nat)
    (js : List Nat) (h : j0 < 1) :
    shuffle l (j0 :: js) = specShuffle l js := by
  have hj0 : j0 = 0 := by omega
  subst hj0
  show shuffleFrom (listSwap l 0 0) 1 js = shuffleFrom l 1 js
  rw [listSwap_self]

theorem shuffle_first_iteration_noop_check :
    (0 : Nat) < 1
    ∧ shuffle ["a", "b", "c"] (0 :: [1, 0]) = specShuffle ["a", "b", "c"] [1, 0] :=
  ⟨by decide, shuffle_first_iteration_noop ["a", "b", "c"] 0 [1, 0] (by decide)⟩

/-! ## Comment selection -/

theorem selectComment_some_pos (comments : List (String × List Nat)) : ∀ (l : List String)
    (b : List Nat), selectComment comments l = some b → b.length > 0 := by
  intro l
  induction l with
  | nil => intro b h; simp [selectComment] at h
  | cons s rest ih =>
    intro b h
    simp only [selectComment] at h
    by_cases hs : (goGet comments s).length > 0
    · rw [if_pos hs] at h
      cases h
      exact hs
    · rw [if_neg hs] at h
      exact ih b h

theorem selectComment_eq_find? (comments : List (String × List Nat)) : ∀ (l : List String),
    selectComment comments l
      = (l.find? (fun s => decide ((goGet comments s).length > 0))).map (goGet comments) := by
  intro l
  induction l with
  | nil => rfl
  | cons s rest ih =>
    by_cases hs : (goGet comments s).length > 0
    · rw [List.find?_cons_of_pos _ (by simpa using hs)]
      simp only [selectComment, if_pos hs, Option.map_some']
    · rw [List.find?_cons_of_neg _ (by simpa using hs)]
      simp only [selectComment, if_neg hs]
      exact ih

theorem selectComment_eq_none_iff (comments : List (String × List Nat)) : ∀ (l : List String),
    selectComment comments l = none ↔ ∀ s ∈ l, goGet comments s = [] := by
  intro l
  induction l with
  | nil => simp [selectComment]
  | cons s rest ih =>
    simp only [selectComment]
    by_cases hs : (goGet comments s).length > 0
    · rw [if_pos hs]
      simp only [List.mem_cons]
      constructor
      · intro h; cases h
      · intro h
        have := h s (Or.inl rfl)
        rw [this] at hs
        simp at hs
    · rw [if_neg hs]
      rw [ih]
      simp only [List.mem_cons]
      constructor
      · intro h y hy
        rcases hy with hy | hy
        · subst hy
          have : (goGet comments y).length = 0 := by omega
          exact List.eq_nil_of_length_eq_zero this
        · exact h y hy
      · intro h y hy
        exact h y (Or.inr hy)

theorem selectComment_unique (comments : List (String × List Nat)) : ∀ (l : List String)
    (x : String), x ∈ l → goGet comments x ≠ [] →
    (∀ y ∈ l, goGet comments y ≠ [] → y = x) →
    selectComment comments l = some (goGet comments x) := by
  intro l
  induction l with
  | nil => intro x hx; simp at hx
  | cons s rest ih =>
    intro x hx hgx huniq
    simp only [selectComment]
    by_cases hs : (goGet comments s).length > 0
    · rw [if_pos hs]
      have hsx : s = x := huniq s (List.mem_cons_self s rest)
        (fun he => by rw [he] at hs; simp at hs)
      rw [hsx]
    · rw [if_neg hs]
      have hsg : goGet comments s = [] := by
        have : (goGet comments s).length = 0 := by omega
        exact List.eq_nil_of_length_eq_zero this
      have hxr : x ∈ rest := by
        rcases List.mem_cons.mp hx with h | h
        · rw [h] at hgx; exact absurd hsg hgx
        · exact h
      exact ih x hxr hgx (fun y hy => huniq y (List.mem_cons_of_mem s hy))

/-- Claim C1 (amended): for every analysis payload, flattening the results
in encounter order (each result's type joined with each of its keys) and
then scanning any shuffled arrangement of that sequence, `process` selects
the content of the first identifier whose corpus entry is *nonempty*; in
particular, if exactly one identifier among all flattened smells has a
nonempty corpus entry, that identifier's content is selected for every
shuffle order, and if no identifier has a nonempty entry no comment is
selected and no error is raised. (The unamended claim reads "present in
the corpus mapping" instead of "nonempty corpus entry"; see the
counterexample `selectComment_present_in_corpus_cex`.) -/
theorem selectComment_first_nonempty (comments : List (String × List Nat))
    (ap : AnalysisPayload) (s' : List String)
    (hperm : s'.Perm (flattenSmells ap.results)) :
    selectComment comments s'
        = (s'.find? (fun s => decide ((goGet comments s).length > 0))).map (goGet comments)
    ∧ (∀ x ∈ flattenSmells ap.results, goGet comments x ≠ [] →
        (∀ y ∈ flattenSmells ap.results, goGet comments y ≠ [] → y = x) →
        selectComment comments s' = some (goGet comments x))
    ∧ ((∀ y ∈ flattenSmells ap.results, goGet comments y = []) →
        selectComment comments s' = none) := by
  refine ⟨selectComment_eq_find? comments s', ?_, ?_⟩
  · intro x hx hgx huniq
    exact selectComment_unique comments s' x (hperm.mem_iff.mpr hx) hgx
      (fun y hy => huniq y (hperm.mem_iff.mp hy))
  · intro h
    exact (selectComment_eq_none_iff comments s').mpr
      (fun s hs => h s (hperm.mem_iff.mp hs))

theorem selectComment_first_nonempty_check :
    selectComment [("smell/x", [65])] ["smell/y", "smell/x"]
        = ((["smell/y", "smell/x"].find?
            (fun s => decide ((goGet [("smell/x", [65])] s).length > 0))).map
          (goGet [("smell/x", [65])]))
    ∧ (∀ x ∈ flattenSmells (AnalysisPayload.mk [AnalysisResult.mk "smell" ["x", "y"]] "").results,
        goGet [("smell/x", [65])] x ≠ [] →
        (∀ y ∈ flattenSmells (AnalysisPayload.mk [AnalysisResult.mk "smell" ["x", "y"]] "").results,
          goGet [("smell/x", [65])] y ≠ [] → y = x) →
        selectComment [("smell/x", [65])] ["smell/y", "smell/x"]
          = some (goGet [("smell/x", [65])] x))
    ∧ ((∀ y ∈ flattenSmells (AnalysisPayload.mk [AnalysisResult.mk "smell" ["x", "y"]] "").results,
        goGet [("smell/x", [65])] y = []) →
        selectComment [("smell/x", [65])] ["smell/y", "smell/x"] = none) :=
  selectComment_first_nonempty [("smell/x", [65])]
    (AnalysisPayload.mk [AnalysisResult.mk "smell" ["x", "y"]] "")
    ["smell/y", "smell/x"] (by decide)

/-- Claim C1, counterexample to the unamended statement: with a corpus in
which `a/b` is present but maps to empty content and `c/d` maps to `[7]`,
and with shuffled smell sequence `["a/b", "c/d"]`, the first identifier
present in the corpus mapping is `a/b` (content `[]`), yet the selection
loop of `process` returns `some [7]` — it skips present-but-empty entries,
contrary to the claim's "first identifier present in the CommentCorpus
mapping". `selectClaimed` follows the claim's words. -/
theorem selectComment_present_in_corpus_cex :
    (List.lookup "a/b" [("a/b", ([] : List Nat)), ("c/d", [7])]).isSome = true
    ∧ selectClaimed [("a/b", ([] : List Nat)), ("c/d", [7])] ["a/b", "c/d"] = some []
    ∧ selectComment [("a/b", ([] : List Nat)), ("c/d", [7])] ["a/b", "c/d"] = some [7]
    ∧ selectComment [("a/b", ([] : List Nat)), ("c/d", [7])] ["a/b", "c/d"]
        ≠ selectClaimed [("a/b", ([] : List Nat)), ("c/d", [7])] ["a/b", "c/d"] := by
  decide

/-! ## The shape of a job's call trace -/

theorem process_events_shape (comments : List (String × List Nat)) (arg0 : Option String)
    (fetch : Except Unit Solution) (http : HttpRes) (js : List Nat) (pubOk : Bool) :
    (process comments arg0 fetch http js pubOk).1 = []
    ∨ (∃ uuid, arg0 = some uuid
        ∧ (process comments arg0 fetch http js pubOk).1 = [Event.fetchCall uuid])
    ∨ (∃ uuid sol, arg0 = some uuid ∧ fetch = Except.ok sol ∧ sol.trackID = "ruby"
        ∧ ((process comments arg0 fetch http js pubOk).1
              = [Event.fetchCall uuid, Event.analyzeCall sol.trackID
                  (String.intercalate "\n" (sol.files.map Prod.snd))]
          ∨ ∃ ap cm, http = HttpRes.resp 200 (BodyParse.payload ap)
              ∧ ap.error = "" ∧ ap.results.length ≠ 0
              ∧ selectComment comments (shuffledSmells ap js) = some cm
              ∧ (process comments arg0 fetch http js pubOk).1
                  = [Event.fetchCall uuid, Event.analyzeCall sol.trackID
                      (String.intercalate "\n" (sol.files.map Prod.snd)),
                    Event.publishCall cm uuid])) := by
  cases arg0 with
  | none => exact Or.inl rfl
  | some uuid =>
    cases fetch with
    | error e => exact Or.inr (Or.inl ⟨uuid, rfl, rfl⟩)
    | ok sol =>
      by_cases htr : sol.trackID = "ruby"
      · cases http with
        | marshalErr =>
          refine Or.inr (Or.inl ⟨uuid, rfl, ?_⟩)
          simp [process, htr]
        | newReqErr =>
          refine Or.inr (Or.inl ⟨uuid, rfl, ?_⟩)
          simp [process, htr]
        | doErr =>
          refine Or.inr (Or.inr ⟨uuid, sol, rfl, rfl, htr, Or.inl ?_⟩)
          simp [process, htr]
        | readErr =>
          refine Or.inr (Or.inr ⟨uuid, sol, rfl, rfl, htr, Or.inl ?_⟩)
          simp [process, htr]
        | resp status body =>
          by_cases hst : status = 200
          · subst hst
            cases body with
            | malformed =>
              refine Or.inr (Or.inr ⟨uuid, sol, rfl, rfl, htr, Or.inl ?_⟩)
              simp [process, htr]
            | payload ap =>
              by_cases herr : ap.error = ""
              · by_cases hres : ap.results.length = 0
                · refine Or.inr (Or.inr ⟨uuid, sol, rfl, rfl, htr, Or.inl ?_⟩)
                  simp [process, htr, herr, hres]
                · cases hsel : selectComment comments (shuffledSmells ap js) with
                  | none =>
                    refine Or.inr (Or.inr ⟨uuid, sol, rfl, rfl, htr, Or.inl ?_⟩)
                    simp [process, htr, herr, hres, hsel]
                  | some cm =>
                    refine Or.inr (Or.inr ⟨uuid, sol, rfl, rfl, htr,
                      Or.inr ⟨ap, cm, rfl, herr, hres, hsel, ?_⟩⟩)
                    simp [process, htr, herr, hres, hsel]
              · refine Or.inr (Or.inr ⟨uuid, sol, rfl, rfl, htr, Or.inl ?_⟩)
                simp [process, htr, herr]
          · refine Or.inr (Or.inr ⟨uuid, sol, rfl, rfl, htr, Or.inl ?_⟩)
            simp [process, htr, hst]
      · refine Or.inr (Or.inl ⟨uuid, rfl, ?_⟩)
        simp [process, htr]

/-! ## Present-but-empty corpus entries behave like absent ones -/

theorem lookup_eq_none_of_not_mem_keys : ∀ (c : List (String × List Nat)) (s : String),
    s ∉ c.map Prod.fst → List.lookup s c = none := by
  intro c
  induction c with
  | nil => intro s _; rfl
  | cons kv t ih =>
    intro s hs
    obtain ⟨k, v⟩ := kv
    have hk : s ≠ k := fun he => hs (by simp [he])
    have hbe : (s == k) = false := beq_eq_false_iff_ne.mpr hk
    have ht : s ∉ t.map Prod.fst := fun he => hs (by simp [he])
    simp only [List.lookup, hbe]
    exact ih s ht

theorem lookup_filter_nonempty : ∀ (c : List (String × List Nat)) (s : String),
    (c.map Prod.fst).Nodup →
    List.lookup s (c.filter (fun p => !p.2.isEmpty))
      = (List.lookup s c).bind (fun b => if b.isEmpty then none else some b) := by
  intro c
  induction c with
  | nil => intro s _; rfl
  | cons kv t ih =>
    intro s hnd
    obtain ⟨k, v⟩ := kv
    have hnd' : (k :: t.map Prod.fst).Nodup := by simpa using hnd
    have hnd1 : k ∉ t.map Prod.fst := (List.nodup_cons.mp hnd').1
    have hnd2 : (t.map Prod.fst).Nodup := (List.nodup_cons.mp hnd').2
    by_cases hv : v.isEmpty
    · have hfil : ((k, v) :: t).filter (fun p => !p.2.isEmpty)
          = t.filter (fun p => !p.2.isEmpty) := by
        rw [List.filter_cons_of_neg]
        simp [hv]
      rw [hfil]
      by_cases hsk : s = k
      · subst hsk
        have hl : List.lookup s t = none := lookup_eq_none_of_not_mem_keys t s hnd1
        rw [ih s hnd2, hl]
        have hr : List.lookup s ((s, v) :: t) = some v := by simp [List.lookup]
        rw [hr]
        have hv' : v = [] := by simpa using hv
        simp [hv']
      · have hbe : (s == k) = false := beq_eq_false_iff_ne.mpr hsk
        rw [ih s hnd2]
        have hr : List.lookup s ((k, v) :: t) = List.lookup s t := by
          simp [List.lookup, hbe]
        rw [hr]
    · have hfil : ((k, v) :: t).filter (fun p => !p.2.isEmpty)
          = (k, v) :: t.filter (fun p => !p.2.isEmpty) := by
        rw [List.filter_cons_of_pos]
        simp [hv]
      rw [hfil]
      by_cases hsk : s = k
      · subst hsk
        have h1 : List.lookup s ((s, v) :: t.filter (fun p => !p.2.isEmpty)) = some v := by
          simp [List.lookup]
        have h2 : List.lookup s ((s, v) :: t) = some v := by simp [List.lookup]
        rw [h1, h2]
        have hv' : ¬v = [] := by simpa using hv
        simp [hv']
      · have hbe : (s == k) = false := beq_eq_false_iff_ne.mpr hsk
        have h1 : List.lookup s ((k, v) :: t.filter (fun p => !p.2.isEmpty))
            = List.lookup s (t.filter (fun p => !p.2.isEmpty)) := by
          simp [List.lookup, hbe]
        have h2 : List.lookup s ((k, v) :: t) = List.lookup s t := by
          simp [List.lookup, hbe]
        rw [h1, h2, ih s hnd2]

theorem goGet_filter (c : List (String × List Nat)) (hnd : (c.map Prod.fst).Nodup)
    (s : String) : goGet (c.filter (fun p => !p.2.isEmpty)) s = goGet c s := by
  simp only [goGet]
  rw [lookup_filter_nonempty c s hnd]
  cases hl : List.lookup s c with
  | none => rfl
  | some b =>
    by_cases hb : b.isEmpty
    · have : b = [] := by simpa using hb
      simp [Option.bind, hb, this]
    · simp [Option.bind, hb]

theorem selectComment_congr (c1 c2 : List (String × List Nat))
    (h : ∀ s, goGet c1 s = goGet c2 s) : ∀ (l : List String),
    selectComment c1 l = selectComment c2 l := by
  intro l
  induction l with
  | nil => rfl
  | cons s rest ih => simp only [selectComment, h s, ih]

/-- Claim C3: a smell identifier whose corpus entry is present but empty is
skipped by the selection loop exactly as if the key were absent (filtering
empty entries out of the corpus never changes the selection), and
consequently `SubmitComment` is never invoked with empty content for any
job. -/
theorem empty_entry_skipped_as_absent (comments : List (String × List Nat))
    (hnd : (comments.map Prod.fst).Nodup) :
    (∀ smells, selectComment comments smells
        = selectComment (comments.filter (fun p => !p.2.isEmpty)) smells)
    ∧ ∀ (arg0 : Option String) (fetch : Except Unit Solution) (http : HttpRes)
        (js : List Nat) (pubOk : Bool) (c : List Nat) (u : String),
        Event.publishCall c u ∈ (process comments arg0 fetch http js pubOk).1 → c ≠ [] := by
  constructor
  · intro smells
    exact selectComment_congr comments (comments.filter (fun p => !p.2.isEmpty))
      (fun s => (goGet_filter comments hnd s).symm) smells
  · intro arg0 fetch http js pubOk c u hmem
    rcases process_events_shape comments arg0 fetch http js pubOk with
      h | ⟨uuid, _, h⟩ | ⟨uuid, sol, _, _, _, h | ⟨ap, cm, _, _, _, hsel, h⟩⟩
    · rw [h] at hmem; simp at hmem
    · rw [h] at hmem; simp at hmem
    · rw [h] at hmem; simp at hmem
    · rw [h] at hmem
      simp at hmem
      obtain ⟨hc, -⟩ := hmem
      have hpos := selectComment_some_pos comments _ cm hsel
      rw [hc]
      intro hnil
      rw [hnil] at hpos
      simp at hpos

theorem empty_entry_skipped_as_absent_check :
    (∀ smells, selectComment [("a", [1]), ("b", [])] smells
        = selectComment ([("a", [1]), ("b", [])].filter (fun p => !p.2.isEmpty)) smells)
    ∧ ∀ (arg0 : Option String) (fetch : Except Unit Solution) (http : HttpRes)
        (js : List Nat) (pubOk : Bool) (c : List Nat) (u : String),
        Event.publishCall c u
            ∈ (process [("a", [1]), ("b", [])] arg0 fetch http js pubOk).1 → c ≠ [] :=
  empty_entry_skipped_as_absent [("a", [1]), ("b", [])] (by decide)

/-! ## Error and empty payloads abort before selection -/

theorem process_payload_abort (comments : List (String × List Nat)) (arg0 : Option String)
    (fetch : Except Unit Solution) (js : List Nat) (pubOk : Bool) (st : Nat)
    (ap : AnalysisPayload) (h : ap.error ≠ "" ∨ ap.results.length = 0) :
    (process comments arg0 fetch (HttpRes.resp st (BodyParse.payload ap)) js pubOk).2
        ≠ Outcome.noMatchingCommentSkip
    ∧ (process comments arg0 fetch (HttpRes.resp st (BodyParse.payload ap)) js pubOk).2
        ≠ Outcome.published
    ∧ (process comments arg0 fetch (HttpRes.resp st (BodyParse.payload ap)) js pubOk).2
        ≠ Outcome.publishError := by
  cases arg0 with
  | none => simp [process]
  | some uuid =>
    cases fetch with
    | error e => simp [process]
    | ok sol =>
      by_cases htr : sol.trackID = "ruby"
      · by_cases hst : st = 200
        · subst hst
          rcases h with herr | hres
          · simp [process, htr, herr]
          · by_cases herr : ap.error = ""
            · simp [process, htr, herr, hres]
            · simp [process, htr, herr]
        · simp [process, htr, hst]
      · simp [process, htr]

/-- Claim C4: for every job, a payload with a non-empty error string never
leads to a publish call regardless of its results, and a payload with an
empty results sequence never leads to a publish call; in both cases the
job's outcome is reached before comment selection (it is never the
no-matching-comment skip nor a publish outcome). -/
theorem error_or_empty_no_publish (comments : List (String × List Nat))
    (arg0 : Option String) (fetch : Except Unit Solution) (js : List Nat) (pubOk : Bool)
    (st : Nat) (ap : AnalysisPayload) (h : ap.error ≠ "" ∨ ap.results = []) :
    (∀ (c : List Nat) (u : String), Event.publishCall c u
        ∉ (process comments arg0 fetch (HttpRes.resp st (BodyParse.payload ap)) js pubOk).1)
    ∧ (process comments arg0 fetch (HttpRes.resp st (BodyParse.payload ap)) js pubOk).2
        ≠ Outcome.noMatchingCommentSkip
    ∧ (process comments arg0 fetch (HttpRes.resp st (BodyParse.payload ap)) js pubOk).2
        ≠ Outcome.published
    ∧ (process comments arg0 fetch (HttpRes.resp st (BodyParse.payload ap)) js pubOk).2
        ≠ Outcome.publishError := by
  have h' : ap.error ≠ "" ∨ ap.results.length = 0 := by
    rcases h with h | h
    · exact Or.inl h
    · exact Or.inr (by simp [h])
  refine ⟨?_, process_payload_abort comments arg0 fetch js pubOk st ap h'⟩
  intro c u hmem
  rcases process_events_shape comments arg0 fetch (HttpRes.resp st (BodyParse.payload ap))
      js pubOk with
    he | ⟨uuid, _, he⟩ | ⟨uuid, sol, _, _, _, he | ⟨ap', cm, hh, herr, hres, _, he⟩⟩
  · rw [he] at hmem; simp at hmem
  · rw [he] at hmem; simp at hmem
  · rw [he] at hmem; simp at hmem
  · have hap : ap = ap' ∧ st = 200 := by
      have := hh
      simp only [HttpRes.resp.injEq, BodyParse.payload.injEq] at this
      exact ⟨this.2, this.1⟩
    rcases h' with herr2 | hres2
    · exact herr2 (hap.1 ▸ herr)
    · exact hres (hap.1 ▸ hres2)

theorem error_or_empty_no_publish_check :
    (∀ (c : List Nat) (u : String), Event.publishCall c u
        ∉ (process [("smell/x", [65])] (some "u1") (Except.ok (Solution.mk "ruby" []))
            (HttpRes.resp 200 (BodyParse.payload (AnalysisPayload.mk [] "boom"))) [] true).1)
    ∧ (process [("smell/x", [65])] (some "u1") (Except.ok (Solution.mk "ruby" []))
        (HttpRes.resp 200 (BodyParse.payload (AnalysisPayload.mk [] "boom"))) [] true).2
        ≠ Outcome.noMatchingCommentSkip
    ∧ (process [("smell/x", [65])] (some "u1") (Except.ok (Solution.mk "ruby" []))
        (HttpRes.resp 200 (BodyParse.payload (AnalysisPayload.mk [] "boom"))) [] true).2
        ≠ Outcome.published
    ∧ (process [("smell/x", [65])] (some "u1") (Except.ok (Solution.mk "ruby" []))
        (HttpRes.resp 200 (BodyParse.payload (AnalysisPayload.mk [] "boom"))) [] true).2
        ≠ Outcome.publishError :=
  error_or_empty_no_publish [("smell/x", [65])] (some "u1")
    (Except.ok (Solution.mk "ruby" [])) [] true 200 (AnalysisPayload.mk [] "boom")
    (Or.inl (by decide))

/-- Claim C6: a fetched submission whose trackID is not "ruby" terminates
the job with only the fetch call having occurred — no analysis call and no
publish call — and the outcome is the dedicated unsupported-track skip
constructor, not one of the error outcomes. -/
theorem unsupported_track_skipped (comments : List (String × List Nat)) (uuid : String)
    (sol : Solution) (http : HttpRes) (js : List Nat) (pubOk : Bool)
    (h : sol.trackID ≠ "ruby") :
    process comments (some uuid) (Except.ok sol) http js pubOk
      = ([Event.fetchCall uuid], Outcome.unsupportedTrackSkip sol.trackID) := by
  simp [process, h]

theorem unsupported_track_skipped_check :
    process [] (some "s1") (Except.ok (Solution.mk "python" [])) HttpRes.doErr [] true
      = ([Event.fetchCall "s1"], Outcome.unsupportedTrackSkip "python") :=
  unsupported_track_skipped [] "s1" (Solution.mk "python" []) HttpRes.doErr [] true
    (by decide)

/-- Claim C7: a queue message whose first argument is missing or not a
string aborts the job immediately: the trace is empty (no fetch, no
analysis, no publish call) and the outcome is the argument error. -/
theorem missing_arg_no_calls (comments : List (String × List Nat))
    (fetch : Except Unit Solution) (http : HttpRes) (js : List Nat) (pubOk : Bool) :
    process comments none fetch http js pubOk = ([], Outcome.argError) := rfl

/-- Claim C8: the publish call is made at most once per job, and any
publish event carries the job's submission id and a comment found by the
selection scan of the shuffled smells of a status-200 payload. -/
theorem publish_at_most_once (comments : List (String × List Nat)) (arg0 : Option String)
    (fetch : Except Unit Solution) (http : HttpRes) (js : List Nat) (pubOk : Bool) :
    ((process comments arg0 fetch http js pubOk).1.filter isPublish).length ≤ 1
    ∧ ∀ (c : List Nat) (u : String),
        Event.publishCall c u ∈ (process comments arg0 fetch http js pubOk).1 →
        arg0 = some u ∧ ∃ ap, http = HttpRes.resp 200 (BodyParse.payload ap)
          ∧ selectComment comments (shuffledSmells ap js) = some c := by
  rcases process_events_shape comments arg0 fetch http js pubOk with
    h | ⟨uuid, ha, h⟩ | ⟨uuid, sol, ha, hf, htr, h | ⟨ap, cm, hh, herr, hres, hsel, h⟩⟩
  · constructor
    · rw [h]; simp
    · intro c u hmem; rw [h] at hmem; simp at hmem
  · constructor
    · rw [h]; simp [isPublish]
    · intro c u hmem; rw [h] at hmem; simp at hmem
  · constructor
    · rw [h]; simp [isPublish]
    · intro c u hmem; rw [h] at hmem; simp at hmem
  · constructor
    · rw [h]; simp [isPublish]
    · intro c u hmem
      rw [h] at hmem
      simp at hmem
      obtain ⟨hc, hu⟩ := hmem
      refine ⟨by rw [ha, hu], ap, hh, ?_⟩
      rw [hc]
      exact hsel

theorem publish_at_most_once_check :
    ((process [("smell/x", [65])] (some "abc123")
        (Except.ok (Solution.mk "ruby" [("f", "code")]))
        (HttpRes.resp 200 (BodyParse.payload
          (AnalysisPayload.mk [AnalysisResult.mk "smell" ["x"]] ""))) [] true).1.filter
      isPublish).length ≤ 1
    ∧ ((some "abc123" : Option String) = some "abc123"
        ∧ ∃ ap, HttpRes.resp 200 (BodyParse.payload
              (AnalysisPayload.mk [AnalysisResult.mk "smell" ["x"]] ""))
            = HttpRes.resp 200 (BodyParse.payload ap)
          ∧ selectComment [("smell/x", [65])] (shuffledSmells ap []) = some [65]) :=
  ⟨(publish_at_most_once [("smell/x", [65])] (some "abc123")
      (Except.ok (Solution.mk "ruby" [("f", "code")]))
      (HttpRes.resp 200 (BodyParse.payload
        (AnalysisPayload.mk [AnalysisResult.mk "smell" ["x"]] ""))) [] true).1,
   (publish_at_most_once [("smell/x", [65])] (some "abc123")
      (Except.ok (Solution.mk "ruby" [("f", "code")]))
      (HttpRes.resp 200 (BodyParse.payload
        (AnalysisPayload.mk [AnalysisResult.mk "smell" ["x"]] ""))) [] true).2
     [65] "abc123" (by decide)⟩

/-- Claim C9: every analysis call of a job carries the submission's track
id and a code blob equal to the submission's file contents concatenated in
their given order, separated by a single line break, with no per-file
boundary information. -/
theorem analyze_code_blob (comments : List (String × List Nat)) (uuid : String)
    (sol : Solution) (http : HttpRes) (js : List Nat) (pubOk : Bool) (t c : String)
    (hmem : Event.analyzeCall t c
        ∈ (process comments (some uuid) (Except.ok sol) http js pubOk).1) :
    t = sol.trackID ∧ c = String.intercalate "\n" (sol.files.map Prod.snd) := by
  rcases process_events_shape comments (some uuid) (Except.ok sol) http js pubOk with
    h | ⟨u', _, h⟩ | ⟨u', sol', ha, hf, htr, h | ⟨ap, cm, _, _, _, _, h⟩⟩
  · rw [h] at hmem; simp at hmem
  · rw [h] at hmem; simp at hmem
  · have hss : sol' = sol := by
      injection hf with h2
      exact h2.symm
    subst hss
    rw [h] at hmem
    simp at hmem
    exact hmem
  · have hss : sol' = sol := by
      injection hf with h2
      exact h2.symm
    subst hss
    rw [h] at hmem
    simp at hmem
    exact hmem

theorem analyze_code_blob_check :
    "ruby" = (Solution.mk "ruby" [("f1", "aaa"), ("f2", "bbb")]).trackID
    ∧ "aaa\nbbb" = String.intercalate "\n"
        ((Solution.mk "ruby" [("f1", "aaa"), ("f2", "bbb")]).files.map Prod.snd) :=
  analyze_code_blob [] "u1" (Solution.mk "ruby" [("f1", "aaa"), ("f2", "bbb")])
    HttpRes.doErr [] true "ruby" "aaa\nbbb" (by decide)

/-! ## Corpus construction -/

theorem stripOccF_nil (d m : List Char) (fuel : Nat) : stripOccF d m fuel [] = [] := by
  cases fuel <;> rfl

theorem stripOccF_fuel_irrelevant (d m : List Char) : ∀ (f1 : Nat) (f2 : Nat) (s : List Char),
    s.length ≤ f1 → s.length ≤ f2 → stripOccF d m f1 s = stripOccF d m f2 s := by
  intro f1
  induction f1 with
  | zero =>
    intro f2 s h1 _
    have : s = [] := List.eq_nil_of_length_eq_zero (by omega)
    subst this
    rw [stripOccF_nil, stripOccF_nil]
  | succ f ih =>
    intro f2 s h1 h2
    cases s with
    | nil => rw [stripOccF_nil, stripOccF_nil]
    | cons c rest =>
      cases f2 with
      | zero => simp at h2
      | succ f2' =>
        simp only [stripOccF]
        by_cases hd : (!d.isEmpty && d.isPrefixOf (c :: rest)) = true
        · rw [if_pos hd, if_pos hd]
          have hdne : d ≠ [] := by
            intro he
            subst he
            simp at hd
          have hdpos : 0 < d.length := List.length_pos.mpr hdne
          have hlen : ((c :: rest).drop d.length).length ≤ f := by
            simp only [List.length_drop, List.length_cons]
            simp only [List.length_cons] at h1
            omega
          have hlen2 : ((c :: rest).drop d.length).length ≤ f2' := by
            simp only [List.length_drop, List.length_cons]
            simp only [List.length_cons] at h2
            omega
          exact ih f2' _ hlen hlen2
        · rw [if_neg hd, if_neg hd]
          by_cases hm : (!m.isEmpty && m.isPrefixOf (c :: rest)) = true
          · rw [if_pos hm, if_pos hm]
            have hmne : m ≠ [] := by
              intro he
              subst he
              simp at hm
            have hmpos : 0 < m.length := List.length_pos.mpr hmne
            have hlen : ((c :: rest).drop m.length).length ≤ f := by
              simp only [List.length_drop, List.length_cons]
              simp only [List.length_cons] at h1
              omega
            have hlen2 : ((c :: rest).drop m.length).length ≤ f2' := by
              simp only [List.length_drop, List.length_cons]
              simp only [List.length_cons] at h2
              omega
            exact ih f2' _ hlen hlen2
          · rw [if_neg hm, if_neg hm]
            have hlen : rest.length ≤ f := by
              simp only [List.length_cons] at h1
              omega
            have hlen2 : rest.length ≤ f2' := by
              simp only [List.length_cons] at h2
              omega
            rw [ih f2' rest hlen hlen2]

theorem stripOcc_cons_of_no_match (d m : List Char) (c : Char) (rest : List Char)
    (h1 : (!d.isEmpty && d.isPrefixOf (c :: rest)) = false)
    (h2 : (!m.isEmpty && m.isPrefixOf (c :: rest)) = false) :
    stripOcc d m (c :: rest) = c :: stripOcc d m rest := by
  show stripOccF d m (c :: rest).length (c :: rest) = c :: stripOcc d m rest
  rw [List.length_cons]
  simp only [stripOccF, h1, h2]
  rfl

theorem stripOcc_prefix_consume (d m : List Char) (s : List Char) (hd : d ≠ []) :
    stripOcc d m (d ++ s) = stripOcc d m s := by
  cases d with
  | nil => exact absurd rfl hd
  | cons c d' =>
    show stripOccF (c :: d') m ((c :: d') ++ s).length ((c :: d') ++ s)
        = stripOcc (c :: d') m s
    have e1 : (c :: d') ++ s = c :: (d' ++ s) := List.cons_append c d' s
    have hcond : (!(c :: d').isEmpty && (c :: d').isPrefixOf (c :: (d' ++ s))) = true := by
      rw [← e1]
      simp [ List.isPrefixOf_iff_prefix]
    rw [e1, List.length_cons]
    simp only [stripOccF, hcond, if_true]
    have e2 : List.drop (c :: d').length (c :: (d' ++ s)) = s := by
      have h3 := List.drop_left (c :: d') s
      rwa [e1] at h3
    rw [e2]
    refine stripOccF_fuel_irrelevant (c :: d') m _ _ s ?_ (Nat.le_refl _)
    simp only [List.length_append]
    omega

theorem stripOcc_eats_pattern (d m : List Char) (hm : m ≠ [])
    (hd : (!d.isEmpty && d.isPrefixOf m) = false) : stripOcc d m m = [] := by
  cases m with
  | nil => exact absurd rfl hm
  | cons c m' =>
    show stripOccF d (c :: m') (c :: m').length (c :: m') = []
    have hcond : (!(c :: m').isEmpty && (c :: m').isPrefixOf (c :: m')) = true := by
      simp [ List.isPrefixOf_iff_prefix]
    rw [List.length_cons]
    simp only [stripOccF, hd, hcond, if_true]
    simp only [Bool.false_eq_true, if_false]
    rw [List.drop_length]
    exact stripOccF_nil d (c :: m') m'.length

theorem stripOcc_append_no_match (d m : List Char) : ∀ (s u : List Char),
    (∀ t, t <:+ (s ++ u) → u.length < t.length → ¬ d <+: t ∧ ¬ m <+: t) →
    stripOcc d m (s ++ u) = s ++ stripOcc d m u := by
  intro s
  induction s with
  | nil => intro u _; rfl
  | cons c s' ih =>
    intro u h
    have hlen : u.length < (c :: (s' ++ u)).length := by
      simp only [List.length_cons, List.length_append]
      omega
    have hmatch : ¬ d <+: (c :: (s' ++ u)) ∧ ¬ m <+: (c :: (s' ++ u)) := by
      refine h (c :: (s' ++ u)) ?_ hlen
      rw [List.cons_append]
    have h1 : (!d.isEmpty && d.isPrefixOf (c :: (s' ++ u))) = false := by
      cases hde : d.isEmpty with
      | true => simp [hde]
      | false =>
        simp only [hde, Bool.not_false, Bool.true_and]
        rw [Bool.eq_false_iff]
        intro hp
        exact hmatch.1 ( List.isPrefixOf_iff_prefix.mp hp)
    have h2 : (!m.isEmpty && m.isPrefixOf (c :: (s' ++ u))) = false := by
      cases hme : m.isEmpty with
      | true => simp [hme]
      | false =>
        simp only [hme, Bool.not_false, Bool.true_and]
        rw [Bool.eq_false_iff]
        intro hp
        exact hmatch.2 ( List.isPrefixOf_iff_prefix.mp hp)
    have hrec : ∀ t, t <:+ (s' ++ u) → u.length < t.length → ¬ d <+: t ∧ ¬ m <+: t := by
      intro t ht hlt
      refine h t ?_ hlt
      have hsub : (s' ++ u) <:+ (c :: (s' ++ u)) := List.suffix_cons c (s' ++ u)
      have h3 := ht.trans hsub
      rw [List.cons_append]
      exact h3
    rw [List.cons_append, stripOcc_cons_of_no_match d m c (s' ++ u) h1 h2, ih u hrec,
      List.cons_append]

theorem buildComments_foldl (dir : String) : ∀ (entries : List WalkEntry)
    (acc : List (String × List Nat)),
    entries.foldl (fun m e => if e.isDir then m else (corpusKey dir e.path, e.content) :: m) acc
      = ((entries.filter (fun e => !e.isDir)).map
          (fun e => (corpusKey dir e.path, e.content))).reverse ++ acc := by
  intro entries
  induction entries with
  | nil => intro acc; simp
  | cons e t ih =>
    intro acc
    by_cases hd : e.isDir
    · rw [List.foldl_cons, if_pos hd, ih acc, List.filter_cons_of_neg (by simp [hd])]
    · rw [List.foldl_cons, if_neg hd, ih _, List.filter_cons_of_pos (by simp [hd]),
        List.map_cons, List.reverse_cons, List.append_assoc]
      rfl

theorem key_scan (dir rel : String)
    (hdot : '.' ∉ rel.data)
    (hdir : ¬ dir.data <:+: ('/' :: (rel.data ++ ['.', 'm', 'd']))) :
    stripOcc dir.data ['.', 'm', 'd'] (('/' :: rel.data) ++ ['.', 'm', 'd'])
      = '/' :: rel.data := by
  have hmain : ∀ t, t <:+ (('/' :: rel.data) ++ ['.', 'm', 'd']) →
      (['.', 'm', 'd'] : List Char).length < t.length →
      ¬ dir.data <+: t ∧ ¬ ['.', 'm', 'd'] <+: t := by
    intro t ht hlt
    constructor
    · intro hp
      apply hdir
      have h3 := hp.isInfix.trans ht.isInfix
      rwa [List.cons_append] at h3
    · intro hp
      rcases ht with ⟨w, hw⟩
      rcases hp with ⟨r, hr⟩
      have hwlen : w.length < ('/' :: rel.data).length := by
        have hl := congrArg List.length hw
        simp only [List.length_append, List.length_cons, List.length_nil] at hl hlt ⊢
        omega
      have ht2 : t = ('/' :: rel.data).drop w.length ++ ['.', 'm', 'd'] := by
        have h4 : t = (w ++ t).drop w.length := (List.drop_left w t).symm
        rw [hw] at h4
        rwa [List.drop_append_of_le_length (by omega)] at h4
      have hne : ('/' :: rel.data).drop w.length ≠ [] := by
        intro he
        have := congrArg List.length he
        simp only [List.length_drop, List.length_cons, List.length_nil] at this
        simp only [List.length_cons] at hwlen
        omega
      cases hsd : ('/' :: rel.data).drop w.length with
      | nil => exact hne hsd
      | cons c z =>
        rw [hsd, List.cons_append] at ht2
        rw [← hr] at ht2
        have hc : c = '.' := by
          have := ht2
          injection this with h5 _
          exact h5.symm
        have hcmem : c ∈ ('/' :: rel.data) := by
          have hmem : c ∈ ('/' :: rel.data).drop w.length := by
            rw [hsd]
            exact List.mem_cons_self c z
          exact (List.drop_suffix w.length ('/' :: rel.data)).subset hmem
        rw [hc] at hcmem
        rcases List.mem_cons.mp hcmem with h6 | h6
        · exact absurd h6 (by decide)
        · exact hdot h6
  rw [stripOcc_append_no_match dir.data ['.', 'm', 'd'] ('/' :: rel.data) ['.', 'm', 'd'] hmain]
  have hdm : (!dir.data.isEmpty && dir.data.isPrefixOf ['.', 'm', 'd']) = false := by
    cases hde : dir.data.isEmpty with
    | true => simp [hde]
    | false =>
      simp only [hde, Bool.not_false, Bool.true_and]
      rw [Bool.eq_false_iff]
      intro hp
      apply hdir
      have hsfx : (['.', 'm', 'd'] : List Char) <:+ ('/' :: rel.data) ++ ['.', 'm', 'd'] :=
        ⟨'/' :: rel.data, rfl⟩
      have h3 := ( List.isPrefixOf_iff_prefix.mp hp).isInfix.trans hsfx.isInfix
      rwa [List.cons_append] at h3
  rw [stripOcc_eats_pattern dir.data ['.', 'm', 'd'] (by decide) hdm]
  rw [List.append_nil]

theorem corpusKey_standard (dir rel : String)
    (hdot : '.' ∉ rel.data)
    (hdir : ¬ dir.data <:+: ('/' :: (rel.data ++ ['.', 'm', 'd'])))
    (hslash : rel.data.head? ≠ some '/') :
    corpusKey dir (dir ++ "/" ++ rel ++ ".md") = rel := by
  have hdne : dir.data ≠ [] := by
    intro he
    apply hdir
    rw [he]
    exact List.nil_infix
  have hpath : (dir ++ "/" ++ rel ++ ".md").data
      = dir.data ++ (('/' :: rel.data) ++ ['.', 'm', 'd']) := by
    simp only [String.data_append, List.append_assoc]
    rfl
  show String.mk ((stripOcc dir.data ".md".data
      (dir ++ "/" ++ rel ++ ".md").data).dropWhile (fun c => c = '/')) = rel
  rw [hpath, show (".md".data : List Char) = ['.', 'm', 'd'] from rfl]
  rw [stripOcc_prefix_consume dir.data ['.', 'm', 'd'] _ hdne]
  rw [key_scan dir rel hdot hdir]
  have hdw : List.dropWhile (fun c => decide (c = '/')) ('/' :: rel.data) = rel.data := by
    rw [List.dropWhile_cons]
    simp only [decide_True, if_true]
    cases hrd : rel.data with
    | nil => rfl
    | cons c z =>
      have hcne : (decide (c = '/')) = false := by
        rw [hrd] at hslash
        simp only [List.head?] at hslash
        simp only [decide_eq_false_iff_not]
        intro he
        exact hslash (by rw [he])
      rw [List.dropWhile_cons, hcne]
      simp
  rw [hdw]

/-- Claim C2 (amended): corpus construction produces, for every regular
file reported by the walk, exactly one entry whose key is the file's path
with every occurrence of the root directory string and every occurrence of
the substring ".md" deleted (one left-to-right pass, root pattern tried
first at each position) and leading `/` characters trimmed, mapped to the
file's raw content; directories produce no entries. For a file
`dir/rel.md` whose relative path `rel` contains no `.`, does not contain
the root string and does not start with `/`, the key is exactly `rel` —
in particular the claim's example (`typeA/x.md`, `typeB/y.md` under root
`R` yield keys `typeA/x`, `typeB/y`). (The unamended claim's "trailing
file extension removed" fails for non-`.md` extensions; see
`corpus_key_extension_cex`.) -/
theorem corpus_entries (dir : String) :
    (∀ entries, buildComments dir entries
        = ((entries.filter (fun e => !e.isDir)).map
            (fun e => (corpusKey dir e.path, e.content))).reverse)
    ∧ ∀ rel : String, '.' ∉ rel.data →
        ¬ dir.data <:+: ('/' :: (rel.data ++ ['.', 'm', 'd'])) →
        rel.data.head? ≠ some '/' →
        corpusKey dir (dir ++ "/" ++ rel ++ ".md") = rel := by
  constructor
  · intro entries
    have h := buildComments_foldl dir entries []
    simpa using h
  · intro rel hdot hdir hslash
    exact corpusKey_standard dir rel hdot hdir hslash

theorem corpus_entries_check :
    (buildComments "/r"
        [WalkEntry.mk "/r/typeA/x.md" false [1], WalkEntry.mk "/r/typeB" true [],
          WalkEntry.mk "/r/typeB/y.md" false [2]]
      = (([WalkEntry.mk "/r/typeA/x.md" false [1], WalkEntry.mk "/r/typeB" true [],
            WalkEntry.mk "/r/typeB/y.md" false [2]].filter (fun e => !e.isDir)).map
          (fun e => (corpusKey "/r" e.path, e.content))).reverse)
    ∧ corpusKey "/r" ("/r" ++ "/" ++ "typeA/x" ++ ".md") = "typeA/x" :=
  ⟨(corpus_entries "/r").1 _,
   (corpus_entries "/r").2 "typeA/x" (by decide) (by decide) (by decide)⟩

/-- Claim C2, counterexample to the unamended statement: a regular file
`/r/typeA/x.txt` under root `/r` yields the corpus key `typeA/x.txt` — the
trailing `.txt` extension is *not* removed (only the literal substring
".md" is), so there is no entry at the claim's key `typeA/x`; moreover the
".md" deletion also fires in the middle of a name: `/r/a.mdx` yields key
`ax`, not `a` (extension `.mdx` removed) nor `a.mdx`. -/
theorem corpus_key_extension_cex :
    buildComments "/r" [WalkEntry.mk "/r/typeA/x.txt" false [1]]
      = [("typeA/x.txt", [1])]
    ∧ List.lookup "typeA/x" (buildComments "/r" [WalkEntry.mk "/r/typeA/x.txt" false [1]])
      = none
    ∧ ("typeA/x.txt" : String) ≠ "typeA/x"
    ∧ corpusKey "/r" "/r/a.mdx" = "ax" := by
  decide

end Rikki
